import Mathlib

/-!
# Verification of the tender-scraper pipeline

Shallow embedding, in Lean 4, of the pure algorithmic parts of the
tender-scraping pipeline (`scraper/cleaner.py`, `scraper/models.py`,
`scraper/metadata.py`, `scraper/browser/driver.py`,
`scraper/browser/extractor.py`), together with proofs settling the
specification's claims about them.

Conventions used throughout:
* Python strings are modelled as `String` / `List Char`;
* Python `None` / fallible results are modelled with `Option`;
* stateful methods become pure functions from the old state (plus any
  ambient inputs such as the current timestamp) to the new state;
* DOM access primitives (`find_all`, `find_next_sibling`, `get_text`,
  `inner_html`, ...) are modelled by passing the texts they would return
  as explicit data, while every decision the Python code makes on those
  texts is re-implemented faithfully.
-/

namespace Scraper

/-! ## Data model (`scraper/models.py`)

`Tender` is modelled with its identity key and the textual fields the
claims under study read; the remaining (optional) payload fields play no
role in any algorithm verified here and are represented by `payload`,
which deduplication must carry through untouched. -/

structure Tender where
  tender_id : String
  title : String
  organization : String
  payload : String := ""
deriving Repr, DecidableEq

/-! ## Deduplication (`TenderCleaner.deduplicate_tenders`, cleaner.py 105-122)

The Python loop keeps a `seen_ids` set, appends a tender to
`unique_tenders` when its id is unseen, and otherwise bumps
`duplicate_count`.  `dedupGo` is that loop with the mutable state made
explicit; `deduplicate_tenders` starts it from the empty seen-set and
returns both the unique list and the reported duplicate count. -/

def dedupGo (seen : List String) : List Tender → List Tender × Nat
  | [] => ([], 0)
  | t :: ts =>
    if t.tender_id ∈ seen then
      ((dedupGo seen ts).1, (dedupGo seen ts).2 + 1)
    else
      (t :: (dedupGo (t.tender_id :: seen) ts).1, (dedupGo (t.tender_id :: seen) ts).2)

def deduplicate_tenders (ts : List Tender) : List Tender × Nat :=
  dedupGo [] ts

theorem dedupGo_cons_mem {seen : List String} {t : Tender} {ts : List Tender}
    (h : t.tender_id ∈ seen) :
    dedupGo seen (t :: ts) = ((dedupGo seen ts).1, (dedupGo seen ts).2 + 1) := by
  simp [dedupGo, h]

theorem dedupGo_cons_not_mem {seen : List String} {t : Tender} {ts : List Tender}
    (h : t.tender_id ∉ seen) :
    dedupGo seen (t :: ts) =
      (t :: (dedupGo (t.tender_id :: seen) ts).1,
       (dedupGo (t.tender_id :: seen) ts).2) := by
  simp [dedupGo, h]

theorem dedupGo_sublist (seen : List String) (ts : List Tender) :
    (dedupGo seen ts).1.Sublist ts := by
  induction ts generalizing seen with
  | nil => simp [dedupGo]
  | cons t ts ih =>
    by_cases h : t.tender_id ∈ seen
    · rw [dedupGo_cons_mem h]
      exact (ih seen).cons t
    · rw [dedupGo_cons_not_mem h]
      exact (ih (t.tender_id :: seen)).cons₂ t

theorem dedupGo_not_seen (seen : List String) (ts : List Tender) :
    ∀ t ∈ (dedupGo seen ts).1, t.tender_id ∉ seen := by
  induction ts generalizing seen with
  | nil => simp [dedupGo]
  | cons t ts ih =>
    by_cases h : t.tender_id ∈ seen
    · rw [dedupGo_cons_mem h]
      exact ih seen
    · rw [dedupGo_cons_not_mem h]
      intro u hu
      rcases List.mem_cons.1 hu with rfl | hu'
      · exact h
      · have := ih (t.tender_id :: seen) u hu'
        exact fun hs => this (List.mem_cons_of_mem _ hs)

theorem dedupGo_nodup (seen : List String) (ts : List Tender) :
    ((dedupGo seen ts).1.map Tender.tender_id).Nodup := by
  induction ts generalizing seen with
  | nil => simp [dedupGo]
  | cons t ts ih =>
    by_cases h : t.tender_id ∈ seen
    · rw [dedupGo_cons_mem h]
      exact ih seen
    · rw [dedupGo_cons_not_mem h]
      have hk := dedupGo_not_seen (t.tender_id :: seen) ts
      simp only [List.map_cons, List.nodup_cons]
      refine ⟨?_, ih (t.tender_id :: seen)⟩
      intro hmem
      rcases List.mem_map.1 hmem with ⟨u, hu, hid⟩
      exact hk u hu (by simp [hid])

theorem dedupGo_first (seen : List String) (ts : List Tender) :
    ∀ t ∈ (dedupGo seen ts).1,
      ts.find? (fun s => s.tender_id == t.tender_id) = some t := by
  induction ts generalizing seen with
  | nil => simp [dedupGo]
  | cons t ts ih =>
    by_cases h : t.tender_id ∈ seen
    · rw [dedupGo_cons_mem h]
      intro u hu
      have hne : ¬ ((fun s => s.tender_id == u.tender_id) t = true) := by
        have := dedupGo_not_seen seen ts u hu
        simp only [beq_iff_eq]
        intro he
        exact this (he ▸ h)
      rw [@List.find?_cons_of_neg Tender (fun s => s.tender_id == u.tender_id) t ts hne]
      exact ih seen u hu
    · rw [dedupGo_cons_not_mem h]
      intro u hu
      rcases List.mem_cons.1 hu with rfl | hu'
      · exact List.find?_cons_of_pos _ (by simp)
      · have hnotin := dedupGo_not_seen (t.tender_id :: seen) ts u hu'
        have hne : ¬ ((fun s => s.tender_id == u.tender_id) t = true) := by
          simp only [beq_iff_eq]
          intro he
          exact hnotin (by simp [he])
        rw [@List.find?_cons_of_neg Tender (fun s => s.tender_id == u.tender_id) t ts hne]
        exact ih (t.tender_id :: seen) u hu'

theorem dedupGo_covers (seen : List String) (ts : List Tender) :
    ∀ t ∈ ts, t.tender_id ∉ seen →
      ∃ u ∈ (dedupGo seen ts).1, u.tender_id = t.tender_id := by
  induction ts generalizing seen with
  | nil => simp
  | cons t ts ih =>
    intro v hv hvseen
    by_cases h : t.tender_id ∈ seen
    · rw [dedupGo_cons_mem h]
      rcases List.mem_cons.1 hv with rfl | hv'
      · exact absurd h hvseen
      · exact ih seen v hv' hvseen
    · rw [dedupGo_cons_not_mem h]
      rcases List.mem_cons.1 hv with rfl | hv'
      · exact ⟨v, List.mem_cons_self _ _, rfl⟩
      · by_cases hvt : v.tender_id = t.tender_id
        · exact ⟨t, List.mem_cons_self _ _, hvt.symm⟩
        · have hnin : v.tender_id ∉ t.tender_id :: seen := by
            simp [hvt, hvseen]
          rcases ih (t.tender_id :: seen) v hv' hnin with ⟨u, hu, he⟩
          exact ⟨u, List.mem_cons_of_mem _ hu, he⟩

theorem dedupGo_count (seen : List String) (ts : List Tender) :
    (dedupGo seen ts).2 + (dedupGo seen ts).1.length = ts.length := by
  induction ts generalizing seen with
  | nil => simp [dedupGo]
  | cons t ts ih =>
    by_cases h : t.tender_id ∈ seen
    · have := ih seen
      rw [dedupGo_cons_mem h]
      simp only [List.length_cons]
      omega
    · have := ih (t.tender_id :: seen)
      rw [dedupGo_cons_not_mem h]
      simp only [List.length_cons]
      omega

/-- C1: deduplication is a single pass keyed by `tender_id`: the output
has pairwise distinct `tender_id`s, each retained record is the
first-encountered record bearing its `tender_id`, the retained records
appear in their original relative order (the output is a sublist of the
input), every input `tender_id` survives, and the reported duplicate
count equals input length minus output length. -/
theorem deduplicate_tenders_correct (ts : List Tender) :
    ((deduplicate_tenders ts).1.map Tender.tender_id).Nodup
    ∧ (deduplicate_tenders ts).1.Sublist ts
    ∧ (∀ t ∈ (deduplicate_tenders ts).1,
        ts.find? (fun s => s.tender_id == t.tender_id) = some t)
    ∧ (∀ t ∈ ts, ∃ u ∈ (deduplicate_tenders ts).1, u.tender_id = t.tender_id)
    ∧ (deduplicate_tenders ts).2 + (deduplicate_tenders ts).1.length = ts.length := by
  refine ⟨dedupGo_nodup [] ts, dedupGo_sublist [] ts, dedupGo_first [] ts, ?_,
    dedupGo_count [] ts⟩
  intro t ht
  exact dedupGo_covers [] ts t ht (by simp)

/-- Witness for C1 at a concrete input: three records, the first and third
sharing a `tender_id`; the first-encountered one is retained and the
duplicate count is 1. -/
theorem deduplicate_tenders_correct_witness :
    (deduplicate_tenders
        [⟨"1", "a", "o", ""⟩, ⟨"2", "b", "o", ""⟩, ⟨"1", "c", "o", ""⟩]).1
      = [⟨"1", "a", "o", ""⟩, ⟨"2", "b", "o", ""⟩]
    ∧ ([⟨"1", "a", "o", ""⟩, ⟨"2", "b", "o", ""⟩, ⟨"1", "c", "o", ""⟩] :
          List Tender).find?
        (fun s => s.tender_id == (⟨"1", "a", "o", ""⟩ : Tender).tender_id)
      = some ⟨"1", "a", "o", ""⟩ := by
  refine ⟨by decide, ?_⟩
  exact (deduplicate_tenders_correct
    [⟨"1", "a", "o", ""⟩, ⟨"2", "b", "o", ""⟩, ⟨"1", "c", "o", ""⟩]).2.2.1
    ⟨"1", "a", "o", ""⟩ (by decide)

/-! ## Run metadata (`RunMetadata`, models.py 201-248; `MetadataTracker.add_error`,
metadata.py 42-43)

`error_summary` is a Python dict mapping an error-type string to a list of
`{message, timestamp}` entries; Python dicts preserve insertion order, so it
is modelled as an association list.  `datetime.utcnow()` becomes the explicit
`now` argument.  `MetadataTracker.add_error` just forwards to
`RunMetadata.add_error`. -/

structure ErrorEntry where
  message : String
  timestamp : String
deriving Repr, DecidableEq

structure RunMetadata where
  run_id : String
  start_time : String
  end_time : Option String
  pages_visited : Nat
  tenders_parsed : Nat
  tenders_saved : Nat
  failures : Nat
  deduped_count : Nat
  error_summary : List (String × List ErrorEntry)
deriving Repr, DecidableEq

def addErrorToSummary (summary : List (String × List ErrorEntry))
    (error_type : String) (entry : ErrorEntry) :
    List (String × List ErrorEntry) :=
  if summary.any (fun p => p.1 == error_type) then
    summary.map (fun p => if p.1 == error_type then (p.1, p.2 ++ [entry]) else p)
  else
    summary ++ [(error_type, [entry])]

def RunMetadata.add_error (m : RunMetadata) (error_type message now : String) :
    RunMetadata :=
  { m with
    error_summary := addErrorToSummary m.error_summary error_type ⟨message, now⟩,
    failures := m.failures + 1 }

def lookupSummary : List (String × List ErrorEntry) → String → Option (List ErrorEntry)
  | [], _ => none
  | p :: ps, k => if p.1 == k then some p.2 else lookupSummary ps k

theorem lookupSummary_eq_none (summary : List (String × List ErrorEntry))
    (k : String) (h : ¬ summary.any (fun p => p.1 == k) = true) :
    lookupSummary summary k = none := by
  induction summary with
  | nil => rfl
  | cons p ps ih =>
    have hp : p.1 ≠ k := fun hk =>
      h (List.any_eq_true.2 ⟨p, List.mem_cons_self _ _, by simp [hk]⟩)
    have hps : ¬ ps.any (fun p => p.1 == k) = true := fun ha => by
      rcases List.any_eq_true.1 ha with ⟨q, hq, hqk⟩
      exact h (List.any_eq_true.2 ⟨q, List.mem_cons_of_mem _ hq, hqk⟩)
    simpa [lookupSummary, hp] using ih hps

theorem lookupSummary_append_right (s t : List (String × List ErrorEntry))
    (k : String) (h : lookupSummary s k = none) :
    lookupSummary (s ++ t) k = lookupSummary t k := by
  induction s with
  | nil => rfl
  | cons p ps ih =>
    by_cases hp : p.1 = k
    · simp [lookupSummary, hp] at h
    · simp only [lookupSummary, hp, beq_iff_eq, if_false, ite_false] at h
      simp only [List.cons_append, lookupSummary, beq_iff_eq, hp, if_false, ite_false]
      · exact ih h

theorem addErrorToSummary_lookup_same (summary : List (String × List ErrorEntry))
    (k : String) (e : ErrorEntry) :
    lookupSummary (addErrorToSummary summary k e) k
      = some ((lookupSummary summary k).getD [] ++ [e]) := by
  by_cases h : summary.any (fun p => p.1 == k) = true
  · rw [addErrorToSummary, if_pos h]
    induction summary with
    | nil => simp at h
    | cons p ps ih =>
      by_cases hp : p.1 = k
      · simp [lookupSummary, hp]
      · have hps : ps.any (fun p => p.1 == k) = true := by
          rcases List.any_eq_true.1 h with ⟨q, hq, hqk⟩
          rcases List.mem_cons.1 hq with rfl | hq'
          · exact absurd (by simpa using hqk) hp
          · exact List.any_eq_true.2 ⟨q, hq', hqk⟩
        have := ih hps
        simpa [lookupSummary, hp] using this
  · rw [addErrorToSummary, if_neg h]
    rw [lookupSummary_append_right _ _ _ (lookupSummary_eq_none _ _ h),
      lookupSummary_eq_none _ _ h]
    simp [lookupSummary]

theorem summaryMapAdd_eq_self (k : String) (e : ErrorEntry)
    (qs : List (String × List ErrorEntry))
    (h : ¬ qs.any (fun q => q.1 == k) = true) :
    qs.map (fun q => if q.1 == k then (q.1, q.2 ++ [e]) else q) = qs := by
  induction qs with
  | nil => rfl
  | cons q qs ihq =>
    have hq : q.1 ≠ k := fun hc =>
      h (List.any_eq_true.2 ⟨q, List.mem_cons_self _ _, by simp [hc]⟩)
    have hqs : ¬ qs.any (fun r => r.1 == k) = true := fun ha => by
      rcases List.any_eq_true.1 ha with ⟨r, hr, hrk⟩
      exact h (List.any_eq_true.2 ⟨r, List.mem_cons_of_mem _ hr, hrk⟩)
    have htail := ihq hqs
    simp only [beq_iff_eq] at htail
    simp [hq, htail]

theorem addErrorToSummary_lookup_other (summary : List (String × List ErrorEntry))
    (k k' : String) (e : ErrorEntry) (hne : k' ≠ k) :
    lookupSummary (addErrorToSummary summary k e) k' = lookupSummary summary k' := by
  by_cases h : summary.any (fun p => p.1 == k) = true
  · rw [addErrorToSummary, if_pos h]
    induction summary with
    | nil => rfl
    | cons p ps ih =>
      by_cases hp : p.1 = k'
      · have hpk : p.1 ≠ k := by
          rw [hp]
          exact fun hc => hne hc
        simp [lookupSummary, hp, hpk, hne]
      · by_cases hps : ps.any (fun q => q.1 == k) = true
        · have := ih hps
          by_cases hpk : p.1 = k
          · simpa [lookupSummary, hpk, hp, Ne.symm hne] using this
          · simpa [lookupSummary, hpk, hp] using this
        · have hmap := summaryMapAdd_eq_self k e ps hps
          simp only [beq_iff_eq] at hmap
          by_cases hpk : p.1 = k
          · simp [lookupSummary, hpk, hp, Ne.symm hne, hmap]
          · simp [lookupSummary, hpk, hp, hmap]
  · rw [addErrorToSummary, if_neg h]
    induction summary with
    | nil =>
      have hkk : k ≠ k' := fun hc => hne hc.symm
      simp [lookupSummary, hkk]
    | cons p ps ih =>
      have hpsany : ¬ ps.any (fun q => q.1 == k) = true := fun ha => by
        rcases List.any_eq_true.1 ha with ⟨q, hq, hqk⟩
        exact h (List.any_eq_true.2 ⟨q, List.mem_cons_of_mem _ hq, hqk⟩)
      have := ih hpsany
      by_cases hp : p.1 = k'
      · simp [lookupSummary, hp]
      · simpa [lookupSummary, hp] using this

/-- C10: `add_error` appends exactly one `{message, timestamp}` entry at the
end of the given category's error list (creating the category if absent),
increments `failures` by exactly 1, leaves every other category's list
unchanged, and leaves `pages_visited`, `tenders_parsed`, `tenders_saved`,
`deduped_count`, `start_time` and `end_time` unchanged. -/
theorem add_error_correct (m : RunMetadata) (error_type message now : String) :
    lookupSummary (m.add_error error_type message now).error_summary error_type
      = some ((lookupSummary m.error_summary error_type).getD []
          ++ [⟨message, now⟩])
    ∧ (∀ k, k ≠ error_type →
        lookupSummary (m.add_error error_type message now).error_summary k
          = lookupSummary m.error_summary k)
    ∧ (m.add_error error_type message now).failures = m.failures + 1
    ∧ (m.add_error error_type message now).pages_visited = m.pages_visited
    ∧ (m.add_error error_type message now).tenders_parsed = m.tenders_parsed
    ∧ (m.add_error error_type message now).tenders_saved = m.tenders_saved
    ∧ (m.add_error error_type message now).deduped_count = m.deduped_count
    ∧ (m.add_error error_type message now).start_time = m.start_time
    ∧ (m.add_error error_type message now).end_time = m.end_time := by
  refine ⟨addErrorToSummary_lookup_same m.error_summary error_type ⟨message, now⟩,
    ?_, rfl, rfl, rfl, rfl, rfl, rfl, rfl⟩
  intro k hk
  exact addErrorToSummary_lookup_other m.error_summary error_type k ⟨message, now⟩ hk

/-- Witness for C10 at a concrete metadata value: one existing "navigation"
error; adding a "parsing" error appends a fresh singleton category, keeps
the "navigation" list intact, and bumps `failures` from 2 to 3. -/
theorem add_error_correct_witness :
    lookupSummary ((RunMetadata.add_error
        ⟨"r", "t0", none, 4, 3, 2, 2, 1,
          [("navigation", [⟨"timeout", "t1"⟩])]⟩
        "parsing" "bad row" "t2").error_summary) "navigation"
      = some [⟨"timeout", "t1"⟩]
    ∧ (RunMetadata.add_error
        ⟨"r", "t0", none, 4, 3, 2, 2, 1,
          [("navigation", [⟨"timeout", "t1"⟩])]⟩
        "parsing" "bad row" "t2").failures = 3 := by
  refine ⟨?_, (add_error_correct
      ⟨"r", "t0", none, 4, 3, 2, 2, 1, [("navigation", [⟨"timeout", "t1"⟩])]⟩
      "parsing" "bad row" "t2").2.2.1.trans (by decide)⟩
  have := (add_error_correct
      ⟨"r", "t0", none, 4, 3, 2, 2, 1, [("navigation", [⟨"timeout", "t1"⟩])]⟩
      "parsing" "bad row" "t2").2.1 "navigation" (by decide)
  rw [this]
  decide

/-! ## Navigation retry (`PageNavigator.goto`, driver.py 134-168)

The loop `for attempt in range(max_retries)` calls `page.goto` once per
iteration.  Each call either raises, or completes with no response object,
or completes with a response whose `ok` flag classifies it.  The outcome of
the `attempt`-th call is supplied as `load attempt`.  The model returns the
boolean result together with the number of navigation attempts actually
performed and the list of backoff sleeps (in seconds: `2 ** attempt`)
awaited, in order. -/

inductive NavResponse where
  | missing
  | resp (ok : Bool)
deriving Repr, DecidableEq

inductive LoadResult where
  | raises
  | completes (r : NavResponse)
deriving Repr, DecidableEq

structure GotoTrace where
  success : Bool
  attempts : Nat
  delays : List Nat
deriving Repr, DecidableEq

/-- The `goto` retry loop, recursing on the number of remaining iterations
`r`; the running iteration handles attempt index `maxRetries - r`.
Mirror of driver.py 140-168: an ok response returns `True` at once; a
non-ok or missing response logs and falls through to the next iteration
with no sleep; an exception sleeps `2 ** attempt` seconds when
`attempt < max_retries - 1` and otherwise returns `False`; an exhausted
loop returns `False`. -/
def gotoGo (load : Nat → LoadResult) (maxRetries : Nat) : Nat → GotoTrace
  | 0 => ⟨false, 0, []⟩
  | r + 1 =>
    match load (maxRetries - (r + 1)) with
    | .completes (.resp true) => ⟨true, 1, []⟩
    | .completes (.resp false) =>
      let t := gotoGo load maxRetries r
      ⟨t.success, t.attempts + 1, t.delays⟩
    | .completes .missing =>
      let t := gotoGo load maxRetries r
      ⟨t.success, t.attempts + 1, t.delays⟩
    | .raises =>
      if maxRetries - (r + 1) < maxRetries - 1 then
        let t := gotoGo load maxRetries r
        ⟨t.success, t.attempts + 1, 2 ^ (maxRetries - (r + 1)) :: t.delays⟩
      else ⟨false, 1, []⟩

def PageNavigator.goto (load : Nat → LoadResult) (max_retries : Nat) : GotoTrace :=
  gotoGo load max_retries max_retries

def okAt (load : Nat → LoadResult) (i : Nat) : Prop :=
  load i = .completes (.resp true)

instance (load : Nat → LoadResult) (i : Nat) : Decidable (okAt load i) := by
  unfold okAt
  infer_instance

theorem gotoGo_attempts_le (load : Nat → LoadResult) (m r : Nat) :
    (gotoGo load m r).attempts ≤ r := by
  induction r with
  | zero => simp [gotoGo]
  | succ r ih =>
    rw [gotoGo]
    rcases load (m - (r + 1)) with _ | r'
    · by_cases hlt : m - (r + 1) < m - 1
      · simpa [hlt] using Nat.succ_le_succ ih
      · simp [hlt]
    · rcases r' with _ | ok
      · simpa using Nat.succ_le_succ ih
      · rcases ok with _ | _
        · simpa using Nat.succ_le_succ ih
        · simp [Nat.succ_le_succ (Nat.zero_le r)]

theorem gotoGo_success_ok (load : Nat → LoadResult) (m : Nat) :
    ∀ r, r ≤ m → (gotoGo load m r).success = true →
      0 < (gotoGo load m r).attempts
      ∧ okAt load (m - r + ((gotoGo load m r).attempts - 1))
      ∧ ∀ j, m - r ≤ j → j < m - r + ((gotoGo load m r).attempts - 1) →
          ¬ okAt load j := by
  intro r
  induction r with
  | zero => simp [gotoGo]
  | succ r ih =>
    intro hrm
    have hr : r ≤ m := Nat.le_of_succ_le hrm
    rw [gotoGo]
    cases hload : load (m - (r + 1)) with
    | raises =>
      by_cases hlt : m - (r + 1) < m - 1
      · rw [if_pos hlt]
        dsimp only
        intro hs
        rcases ih hr hs with ⟨h0, hok, hprev⟩
        refine ⟨Nat.succ_pos _, ?_, ?_⟩
        · have heq : m - (r + 1) + ((gotoGo load m r).attempts + 1 - 1)
              = m - r + ((gotoGo load m r).attempts - 1) := by omega
          rw [heq]
          exact hok
        · intro j hj1 hj2
          rcases Nat.eq_or_lt_of_le hj1 with heqj | hj1'
          · intro hbad
            rw [okAt, ← heqj, hload] at hbad
            exact absurd hbad (by simp)
          · exact hprev j (by omega) (by omega)
      · rw [if_neg hlt]
        intro hs
        exact absurd hs (by simp)
    | completes r' =>
      cases r' with
      | missing =>
        dsimp only
        intro hs
        rcases ih hr hs with ⟨h0, hok, hprev⟩
        refine ⟨Nat.succ_pos _, ?_, ?_⟩
        · have heq : m - (r + 1) + ((gotoGo load m r).attempts + 1 - 1)
              = m - r + ((gotoGo load m r).attempts - 1) := by omega
          rw [heq]
          exact hok
        · intro j hj1 hj2
          rcases Nat.eq_or_lt_of_le hj1 with heqj | hj1'
          · intro hbad
            rw [okAt, ← heqj, hload] at hbad
            exact absurd hbad (by simp)
          · exact hprev j (by omega) (by omega)
      | resp ok =>
        cases ok with
        | false =>
          dsimp only
          intro hs
          rcases ih hr hs with ⟨h0, hok, hprev⟩
          refine ⟨Nat.succ_pos _, ?_, ?_⟩
          · have heq : m - (r + 1) + ((gotoGo load m r).attempts + 1 - 1)
                = m - r + ((gotoGo load m r).attempts - 1) := by omega
            rw [heq]
            exact hok
          · intro j hj1 hj2
            rcases Nat.eq_or_lt_of_le hj1 with heqj | hj1'
            · intro hbad
              rw [okAt, ← heqj, hload] at hbad
              exact absurd hbad (by simp)
            · exact hprev j (by omega) (by omega)
        | true =>
          dsimp only
          intro _
          refine ⟨Nat.one_pos, ?_, ?_⟩
          · show okAt load (m - (r + 1) + (1 - 1))
            have heq : m - (r + 1) + (1 - 1) = m - (r + 1) := by omega
            rw [heq, okAt, hload]
          · intro j hj1 hj2
            omega

theorem gotoGo_no_ok_fails (load : Nat → LoadResult) (m : Nat) :
    ∀ r, r ≤ m → (∀ i, m - r ≤ i → i < m → ¬ okAt load i) →
      (gotoGo load m r).success = false := by
  intro r
  induction r with
  | zero => simp [gotoGo]
  | succ r ih =>
    intro hrm hnone
    have hr : r ≤ m := Nat.le_of_succ_le hrm
    rw [gotoGo]
    cases hload : load (m - (r + 1)) with
    | raises =>
      by_cases hlt : m - (r + 1) < m - 1
      · rw [if_pos hlt]
        dsimp only
        exact ih hr (fun i h1 h2 => hnone i (by omega) h2)
      · rw [if_neg hlt]
    | completes r' =>
      cases r' with
      | missing =>
        dsimp only
        exact ih hr (fun i h1 h2 => hnone i (by omega) h2)
      | resp ok =>
        cases ok with
        | false =>
          dsimp only
          exact ih hr (fun i h1 h2 => hnone i (by omega) h2)
        | true =>
          exfalso
          refine hnone (m - (r + 1)) (by omega) (by omega) ?_
          rw [okAt, hload]

theorem gotoGo_delays (load : Nat → LoadResult) (m : Nat) :
    ∀ r, r ≤ m →
      (gotoGo load m r).delays
        = (((List.range' (m - r) r).take (gotoGo load m r).attempts).filter
            (fun i => decide (load i = .raises) && decide (i < m - 1))).map
            (fun i => 2 ^ i) := by
  intro r
  induction r with
  | zero => simp [gotoGo]
  | succ r ih =>
    intro hrm
    have hr : r ≤ m := Nat.le_of_succ_le hrm
    have hstep : m - (r + 1) + 1 = m - r := by omega
    have hrange : List.range' (m - (r + 1)) (r + 1)
        = (m - (r + 1)) :: List.range' (m - r) r := by
      rw [List.range'_succ, hstep]
    rw [gotoGo, hrange]
    cases hload : load (m - (r + 1)) with
    | raises =>
      by_cases hlt : m - (r + 1) < m - 1
      · rw [if_pos hlt]
        dsimp only
        rw [List.take_succ_cons, List.filter_cons]
        have hcond : (decide (load (m - (r + 1)) = LoadResult.raises)
            && decide (m - (r + 1) < m - 1)) = true := by
          simp [hload, hlt]
        rw [if_pos hcond, List.map_cons]
        exact congrArg _ (ih hr)
      · rw [if_neg hlt]
        dsimp only
        rw [List.take_succ_cons, List.take_zero, List.filter_cons]
        have hcond : (decide (load (m - (r + 1)) = LoadResult.raises)
            && decide (m - (r + 1) < m - 1)) = false := by
          simp [hload, hlt]
        rw [if_neg (by simp [hcond])]
        rfl
    | completes r' =>
      cases r' with
      | missing =>
        dsimp only
        rw [List.take_succ_cons, List.filter_cons]
        have hcond : (decide (load (m - (r + 1)) = LoadResult.raises)
            && decide (m - (r + 1) < m - 1)) = false := by
          simp [hload]
        rw [if_neg (by simp [hcond])]
        exact ih hr
      | resp ok =>
        cases ok with
        | false =>
          dsimp only
          rw [List.take_succ_cons, List.filter_cons]
          have hcond : (decide (load (m - (r + 1)) = LoadResult.raises)
              && decide (m - (r + 1) < m - 1)) = false := by
            simp [hload]
          rw [if_neg (by simp [hcond])]
          exact ih hr
        | true =>
          dsimp only
          rw [List.take_succ_cons, List.take_zero, List.filter_cons]
          have hcond : (decide (load (m - (r + 1)) = LoadResult.raises)
              && decide (m - (r + 1) < m - 1)) = false := by
            simp [hload]
          rw [if_neg (by simp [hcond])]
          rfl

/-- C3 counterexample: with `max_retries = 2` and a load that completes
with a non-ok response on both attempts, `goto` performs two consecutive
failed attempts yet sleeps no backoff delay at all — line 163 of driver.py
sleeps only in the exception handler, so a failure by non-ok response gets
no backoff, contradicting the claim that a backoff delay is waited between
any two consecutive failed attempts (which would require at least one
delay here). -/
theorem goto_backoff_counterexample :
    (PageNavigator.goto (fun _ => .completes (.resp false)) 2).attempts = 2
    ∧ (PageNavigator.goto (fun _ => .completes (.resp false)) 2).success = false
    ∧ (PageNavigator.goto (fun _ => .completes (.resp false)) 2).delays = []
    ∧ ¬ 1 ≤ (PageNavigator.goto (fun _ => .completes (.resp false)) 2).delays.length := by
  refine ⟨by decide, by decide, by decide, by decide⟩

/-- C3 (amended): `goto` attempts navigation at most `max_retries` times;
it reports success only when an attempt yields a navigation response
classified ok (and it stops at the first such attempt); a backoff delay is
waited only after an attempt that fails *by raising* and is not the final
attempt — an attempt failing with a non-ok or missing response gets no
backoff — and the delay after attempt `i` is `2 ^ i` base units; after
exhausting all attempts without an ok response it returns failure rather
than raising. -/
theorem goto_retry_correct (load : Nat → LoadResult) (m : Nat) :
    (PageNavigator.goto load m).attempts ≤ m
    ∧ ((PageNavigator.goto load m).success = true →
        0 < (PageNavigator.goto load m).attempts
        ∧ okAt load ((PageNavigator.goto load m).attempts - 1)
        ∧ ∀ j, j < (PageNavigator.goto load m).attempts - 1 → ¬ okAt load j)
    ∧ ((∀ i, i < m → ¬ okAt load i) → (PageNavigator.goto load m).success = false)
    ∧ (PageNavigator.goto load m).delays
        = (((List.range' 0 m).take (PageNavigator.goto load m).attempts).filter
            (fun i => decide (load i = .raises) && decide (i < m - 1))).map
            (fun i => 2 ^ i) := by
  refine ⟨gotoGo_attempts_le load m m, ?_, ?_, ?_⟩
  · intro hs
    have h := gotoGo_success_ok load m m (Nat.le_refl m) hs
    rcases h with ⟨h0, hok, hprev⟩
    rw [Nat.sub_self, Nat.zero_add] at hok hprev
    exact ⟨h0, hok, fun j hj => hprev j (Nat.zero_le j) hj⟩
  · intro hnone
    refine gotoGo_no_ok_fails load m m (Nat.le_refl m) ?_
    intro i _ hi
    exact hnone i hi
  · have h := gotoGo_delays load m m (Nat.le_refl m)
    rwa [Nat.sub_self] at h

/-- Concrete load used for the retry example from the spec: raises on
attempts 0 and 1, completes ok on attempt 2. -/
def loadRaisesTwice : Nat → LoadResult :=
  fun i => if i < 2 then .raises else .completes (.resp true)

/-- Concrete load with no ok response at all. -/
def loadNeverOk : Nat → LoadResult :=
  fun _ => .completes .missing

/-- Witness for C3 at concrete inputs: with `loadRaisesTwice` and
`max_retries = 3` the navigator reports success after 3 attempts and
exactly 2 backoff delays (1s then 2s) occur; the ok-attempt is attempt 2
and no earlier attempt was ok; with `loadNeverOk` the navigator returns
failure. -/
theorem goto_retry_correct_witness :
    PageNavigator.goto loadRaisesTwice 3
      = ⟨true, 3, [1, 2]⟩
    ∧ (0 < (PageNavigator.goto loadRaisesTwice 3).attempts
        ∧ okAt loadRaisesTwice ((PageNavigator.goto loadRaisesTwice 3).attempts - 1)
        ∧ ∀ j, j < (PageNavigator.goto loadRaisesTwice 3).attempts - 1 →
            ¬ okAt loadRaisesTwice j)
    ∧ (PageNavigator.goto loadNeverOk 2).success = false := by
  refine ⟨by decide, (goto_retry_correct loadRaisesTwice 3).2.1 (by decide), ?_⟩
  refine (goto_retry_correct loadNeverOk 2).2.2.1 ?_
  intro i _
  intro hbad
  rw [okAt] at hbad
  exact absurd hbad (by simp [loadNeverOk])

/-- C9: invoking `goto` with `max_retries = 0` (a value the configuration
contract `Settings.max_retries` with `ge=0` allows) runs the loop body
zero times: no navigation attempt is performed, no backoff delay is
waited, and `False` is returned rather than an exception raised. -/
theorem goto_zero_retries (load : Nat → LoadResult) :
    PageNavigator.goto load 0 = ⟨false, 0, []⟩ := rfl

/-! ## Shared string primitives

Python's `needle in hay` substring test and `str.lower()` for the ASCII
texts the extractor handles. -/

def matchesAtStart : List Char → List Char → Bool
  | [], _ => true
  | _ :: _, [] => false
  | a :: as, b :: bs => a == b && matchesAtStart as bs

def charsContains (hay needle : List Char) : Bool :=
  match hay with
  | [] => needle.isEmpty
  | _ :: t => matchesAtStart needle hay || charsContains t needle

def strContains (hay needle : String) : Bool :=
  charsContains hay.data needle.data

def pyLower (s : String) : String :=
  ⟨s.data.map Char.toLower⟩

/-! ## Tender type classification (`TenderExtractor._determine_tender_type`,
extractor.py 470-495)

`' '.join(filter(None, [title, organization, description])).lower()` drops
`None` and empty strings, joins the rest with single spaces and
lower-cases; keyword hits are Python substring tests. -/

inductive TenderType where
  | GOODS
  | WORKS
  | SERVICES
  | UNKNOWN
deriving Repr, DecidableEq

def works_keywords : List String :=
  ["construction", "building", "road", "bridge", "repair", "maintenance"]

def goods_keywords : List String :=
  ["supply", "purchase", "procurement", "equipment", "goods"]

def services_keywords : List String :=
  ["consultancy", "service", "management", "operation", "audit"]

def classificationText (title organization description : Option String) : String :=
  pyLower (String.intercalate " "
    (([title, organization, description].filterMap id).filter (fun s => !s.isEmpty)))

def countHits (kws : List String) (text : String) : Nat :=
  kws.countP (fun kw => strContains text kw)

def determine_tender_type (title organization description : Option String) :
    TenderType :=
  let text := classificationText title organization description
  let works_count := countHits works_keywords text
  let goods_count := countHits goods_keywords text
  let services_count := countHits services_keywords text
  let max_count := max works_count (max goods_count services_count)
  if max_count = 0 then .UNKNOWN
  else if works_count = max_count then .WORKS
  else if goods_count = max_count then .GOODS
  else .SERVICES

/-- C4: classification counts keyword hits of the three fixed sets against
the lower-cased concatenation of title, organization and description; the
strictly highest count wins, ties break by the priority
works > goods > services, and zero hits everywhere yields Unknown. -/
theorem determine_tender_type_correct (t o d : Option String) :
    (countHits works_keywords (classificationText t o d) = 0
      → countHits goods_keywords (classificationText t o d) = 0
      → countHits services_keywords (classificationText t o d) = 0
      → determine_tender_type t o d = .UNKNOWN)
    ∧ (0 < countHits works_keywords (classificationText t o d)
      → countHits goods_keywords (classificationText t o d)
          ≤ countHits works_keywords (classificationText t o d)
      → countHits services_keywords (classificationText t o d)
          ≤ countHits works_keywords (classificationText t o d)
      → determine_tender_type t o d = .WORKS)
    ∧ (countHits works_keywords (classificationText t o d)
          < countHits goods_keywords (classificationText t o d)
      → countHits services_keywords (classificationText t o d)
          ≤ countHits goods_keywords (classificationText t o d)
      → determine_tender_type t o d = .GOODS)
    ∧ (countHits works_keywords (classificationText t o d)
          < countHits services_keywords (classificationText t o d)
      → countHits goods_keywords (classificationText t o d)
          < countHits services_keywords (classificationText t o d)
      → determine_tender_type t o d = .SERVICES) := by
  unfold determine_tender_type
  refine ⟨?_, ?_, ?_, ?_⟩
  · intro hw hg hs
    rw [if_pos (by omega)]
  · intro hw hg hs
    rw [if_neg (by omega), if_pos (by omega)]
  · intro hwg hsg
    rw [if_neg (by omega), if_neg (by omega), if_pos (by omega)]
  · intro hws hgs
    rw [if_neg (by omega), if_neg (by omega), if_neg (by omega)]

/-- Witness for C4 at a concrete input: "Road repair supply" has 2 works
hits ("road", "repair"), 1 goods hit ("supply") and 0 services hits, and
classifies as Works; "xyz" has zero hits everywhere and classifies as
Unknown. -/
theorem determine_tender_type_correct_witness :
    countHits works_keywords (classificationText (some "Road repair supply") none none) = 2
    ∧ countHits goods_keywords (classificationText (some "Road repair supply") none none) = 1
    ∧ countHits services_keywords (classificationText (some "Road repair supply") none none) = 0
    ∧ determine_tender_type (some "Road repair supply") none none = .WORKS
    ∧ determine_tender_type (some "xyz") none none = .UNKNOWN := by
  refine ⟨by decide, by decide, by decide, ?_, ?_⟩
  · exact (determine_tender_type_correct (some "Road repair supply") none none).2.1
      (by decide) (by decide) (by decide)
  · exact (determine_tender_type_correct (some "xyz") none none).1
      (by decide) (by decide) (by decide)

/-! ## Date normalization (`TenderCleaner.normalize_date`, cleaner.py 71-96)

The four branches of the Python function, in order:
1. `re.match(r'^\d{4}-\d{2}-\d{2}$', ...)` — ISO passthrough;
2. `re.match(r'^(\d{2})-(\d{2})-(\d{4})$', ...)` — captured *strings*
   reassembled as `f"{year}-{month}-{day}"` with no numeric validation;
3. same with `/` separators;
4. `datetime.strptime(date_str, '%d-%m-%Y')` — CPython compiles `%d` to
   the alternation `3[01]|[12]\d|0[1-9]|[1-9]`, `%m` to
   `1[0-2]|0[1-9]|[1-9]` and `%Y` to `\d\d\d\d`, requires the whole
   string to match, then builds a `datetime`, which re-validates the
   day against the month length (Gregorian leap rule) and rejects year 0;
   any `ValueError` falls through to returning the input unchanged.
`strftime('%Y-%m-%d')` zero-pads month and day to two digits; `%Y` is
printed unpadded (glibc behaviour), which only differs for years < 1000. -/

def digitVal (c : Char) : Nat := c.toNat - 48

def matchISODate (s : List Char) : Bool :=
  match s with
  | [a, b, c, d, e, f, g, h, i, j] =>
    a.isDigit && b.isDigit && c.isDigit && d.isDigit && e == '-'
      && f.isDigit && g.isDigit && h == '-' && i.isDigit && j.isDigit
  | _ => false

def matchDMY (sep : Char) (s : List Char) :
    Option (List Char × List Char × List Char) :=
  match s with
  | [d1, d2, c1, m1, m2, c2, y1, y2, y3, y4] =>
    if d1.isDigit && d2.isDigit && c1 == sep && m1.isDigit && m2.isDigit
        && c2 == sep && y1.isDigit && y2.isDigit && y3.isDigit && y4.isDigit then
      some ([d1, d2], [m1, m2], [y1, y2, y3, y4])
    else none
  | _ => none

def dayCands : List Char → List (Nat × List Char)
  | a :: b :: rest =>
    (if a == '3' && (b == '0' || b == '1') then [(30 + digitVal b, rest)] else [])
    ++ (if (a == '1' || a == '2') && b.isDigit then
        [(10 * digitVal a + digitVal b, rest)] else [])
    ++ (if a == '0' && b.isDigit && !(b == '0') then [(digitVal b, rest)] else [])
    ++ (if a.isDigit && !(a == '0') then [(digitVal a, b :: rest)] else [])
  | [a] => if a.isDigit && !(a == '0') then [(digitVal a, [])] else []
  | [] => []

def monthCands : List Char → List (Nat × List Char)
  | a :: b :: rest =>
    (if a == '1' && (b == '0' || b == '1' || b == '2') then
        [(10 + digitVal b, rest)] else [])
    ++ (if a == '0' && b.isDigit && !(b == '0') then [(digitVal b, rest)] else [])
    ++ (if a.isDigit && !(a == '0') then [(digitVal a, b :: rest)] else [])
  | [a] => if a.isDigit && !(a == '0') then [(digitVal a, [])] else []
  | [] => []

def parseYear4 : List Char → Option (Nat × List Char)
  | a :: b :: c :: d :: rest =>
    if a.isDigit && b.isDigit && c.isDigit && d.isDigit then
      some (1000 * digitVal a + 100 * digitVal b + 10 * digitVal c + digitVal d,
        rest)
    else none
  | _ => none

def tryMonthYear (s : List Char) : Option (Nat × Nat) :=
  (monthCands s).findSome? (fun c =>
    match c.2 with
    | '-' :: r3 =>
      match parseYear4 r3 with
      | some (y, []) => some (c.1, y)
      | _ => none
    | _ => none)

def strptimeDMY (s : List Char) : Option (Nat × Nat × Nat) :=
  (dayCands s).findSome? (fun c =>
    match c.2 with
    | '-' :: r2 => (tryMonthYear r2).map (fun my => (c.1, my.1, my.2))
    | _ => none)

def isLeapYear (y : Nat) : Bool :=
  y % 4 == 0 && (y % 100 != 0 || y % 400 == 0)

def daysInMonth (y m : Nat) : Nat :=
  if m == 2 then (if isLeapYear y then 29 else 28)
  else if m == 4 || m == 6 || m == 9 || m == 11 then 30
  else 31

def validDate (y m d : Nat) : Bool :=
  1 ≤ y && 1 ≤ d && d ≤ daysInMonth y m

def pad2 (n : Nat) : String :=
  if n < 10 then "0" ++ toString n else toString n

def formatISO (y m d : Nat) : String :=
  toString y ++ "-" ++ pad2 m ++ "-" ++ pad2 d

def normalize_date (date_str : String) : Option String :=
  if date_str = "" then none
  else if matchISODate date_str.data then some date_str
  else
    match matchDMY '-' date_str.data with
    | some (d, m, y) => some ⟨y ++ '-' :: (m ++ '-' :: d)⟩
    | none =>
      match matchDMY '/' date_str.data with
      | some (d, m, y) => some ⟨y ++ '-' :: (m ++ '-' :: d)⟩
      | none =>
        match strptimeDMY date_str.data with
        | some (d, m, y) =>
          if validDate y m d then some (formatISO y m d) else some date_str
        | none => some date_str

theorem normalize_date_iso (s : String) (h : matchISODate s.data = true) :
    normalize_date s = some s := by
  have hne : s ≠ "" := by
    intro he
    rw [he] at h
    exact absurd h (by decide)
  rw [normalize_date, if_neg hne, if_pos h]

theorem normalize_date_total (s : String) (hs : s ≠ "") :
    ∃ r, normalize_date s = some r := by
  rw [normalize_date, if_neg hs]
  by_cases hI : matchISODate s.data
  · rw [if_pos hI]
    exact ⟨s, rfl⟩
  · rw [if_neg hI]
    cases h1 : matchDMY '-' s.data with
    | some v =>
      rcases v with ⟨d, m, y⟩
      exact ⟨_, rfl⟩
    | none =>
      cases h2 : matchDMY '/' s.data with
      | some v =>
        rcases v with ⟨d, m, y⟩
        exact ⟨_, rfl⟩
      | none =>
        cases h3 : strptimeDMY s.data with
        | some v =>
          rcases v with ⟨d, m, y⟩
          dsimp only
          by_cases hv : validDate y m d
          · rw [if_pos hv]
            exact ⟨_, rfl⟩
          · rw [if_neg hv]
            exact ⟨s, rfl⟩
        | none => exact ⟨s, rfl⟩

theorem normalize_date_dmy (d1 d2 m1 m2 y1 y2 y3 y4 : Char)
    (hd1 : d1.isDigit = true) (hd2 : d2.isDigit = true)
    (hm1 : m1.isDigit = true) (hm2 : m2.isDigit = true)
    (hy1 : y1.isDigit = true) (hy2 : y2.isDigit = true)
    (hy3 : y3.isDigit = true) (hy4 : y4.isDigit = true) :
    normalize_date ⟨[d1, d2, '-', m1, m2, '-', y1, y2, y3, y4]⟩
      = some ⟨[y1, y2, y3, y4, '-', m1, m2, '-', d1, d2]⟩ := by
  have hm2ne : (m2 == '-') = false := by
    cases hb : m2 == '-'
    · rfl
    · rw [beq_iff_eq] at hb
      rw [hb] at hm2
      exact absurd hm2 (by decide)
  have hne : (⟨[d1, d2, '-', m1, m2, '-', y1, y2, y3, y4]⟩ : String) ≠ "" := by
    intro he
    have := congrArg String.data he
    simp at this
  have hISO : matchISODate
      (String.data ⟨[d1, d2, '-', m1, m2, '-', y1, y2, y3, y4]⟩) = false := by
    show matchISODate [d1, d2, '-', m1, m2, '-', y1, y2, y3, y4] = false
    simp [matchISODate, hm2ne]
  have hDMY : matchDMY '-'
      (String.data ⟨[d1, d2, '-', m1, m2, '-', y1, y2, y3, y4]⟩)
      = some ([d1, d2], [m1, m2], [y1, y2, y3, y4]) := by
    show matchDMY '-' [d1, d2, '-', m1, m2, '-', y1, y2, y3, y4] = _
    simp [matchDMY, hd1, hd2, hm1, hm2, hy1, hy2, hy3, hy4]
  rw [normalize_date, if_neg hne, if_neg (by simp [hISO]), hDMY]
  rfl

theorem normalize_date_dmy_slash (d1 d2 m1 m2 y1 y2 y3 y4 : Char)
    (hd1 : d1.isDigit = true) (hd2 : d2.isDigit = true)
    (hm1 : m1.isDigit = true) (hm2 : m2.isDigit = true)
    (hy1 : y1.isDigit = true) (hy2 : y2.isDigit = true)
    (hy3 : y3.isDigit = true) (hy4 : y4.isDigit = true) :
    normalize_date ⟨[d1, d2, '/', m1, m2, '/', y1, y2, y3, y4]⟩
      = some ⟨[y1, y2, y3, y4, '-', m1, m2, '-', d1, d2]⟩ := by
  have hm2ne : (m2 == '-') = false := by
    cases hb : m2 == '-'
    · rfl
    · rw [beq_iff_eq] at hb
      rw [hb] at hm2
      exact absurd hm2 (by decide)
  have hne : (⟨[d1, d2, '/', m1, m2, '/', y1, y2, y3, y4]⟩ : String) ≠ "" := by
    intro he
    have := congrArg String.data he
    simp at this
  have hISO : matchISODate
      (String.data ⟨[d1, d2, '/', m1, m2, '/', y1, y2, y3, y4]⟩) = false := by
    show matchISODate [d1, d2, '/', m1, m2, '/', y1, y2, y3, y4] = false
    simp [matchISODate, hm2ne]
  have hDash : matchDMY '-'
      (String.data ⟨[d1, d2, '/', m1, m2, '/', y1, y2, y3, y4]⟩) = none := by
    show matchDMY '-' [d1, d2, '/', m1, m2, '/', y1, y2, y3, y4] = none
    simp [matchDMY]
  have hSlash : matchDMY '/'
      (String.data ⟨[d1, d2, '/', m1, m2, '/', y1, y2, y3, y4]⟩)
      = some ([d1, d2], [m1, m2], [y1, y2, y3, y4]) := by
    show matchDMY '/' [d1, d2, '/', m1, m2, '/', y1, y2, y3, y4] = _
    simp [matchDMY, hd1, hd2, hm1, hm2, hy1, hy2, hy3, hy4]
  rw [normalize_date, if_neg hne, if_neg (by simp [hISO]), hDash, hSlash]
  rfl

/-- C5: date normalization maps "15-02-2026" to "2026-02-15", returns an
already-ISO string such as "2026-02-15" unchanged, returns a string of
unrecognized shape such as "Feb 2026" byte-identical; in general any
`\d{4}-\d{2}-\d{2}` string passes through unchanged, any `\d{2}-\d{2}-\d{4}`
or `\d{2}/\d{2}/\d{4}` string is reordered to ISO, and every non-empty
input yields a result rather than an error. -/
theorem normalize_date_correct :
    normalize_date "15-02-2026" = some "2026-02-15"
    ∧ normalize_date "2026-02-15" = some "2026-02-15"
    ∧ normalize_date "Feb 2026" = some "Feb 2026"
    ∧ (∀ s : String, matchISODate s.data = true → normalize_date s = some s)
    ∧ (∀ d1 d2 m1 m2 y1 y2 y3 y4 : Char,
        d1.isDigit = true → d2.isDigit = true → m1.isDigit = true →
        m2.isDigit = true → y1.isDigit = true → y2.isDigit = true →
        y3.isDigit = true → y4.isDigit = true →
        normalize_date ⟨[d1, d2, '-', m1, m2, '-', y1, y2, y3, y4]⟩
          = some ⟨[y1, y2, y3, y4, '-', m1, m2, '-', d1, d2]⟩
        ∧ normalize_date ⟨[d1, d2, '/', m1, m2, '/', y1, y2, y3, y4]⟩
          = some ⟨[y1, y2, y3, y4, '-', m1, m2, '-', d1, d2]⟩)
    ∧ (∀ s : String, s ≠ "" → ∃ r, normalize_date s = some r) := by
  refine ⟨by decide, by decide, by decide, normalize_date_iso, ?_,
    normalize_date_total⟩
  intro d1 d2 m1 m2 y1 y2 y3 y4 hd1 hd2 hm1 hm2 hy1 hy2 hy3 hy4
  exact ⟨normalize_date_dmy d1 d2 m1 m2 y1 y2 y3 y4 hd1 hd2 hm1 hm2 hy1 hy2 hy3 hy4,
    normalize_date_dmy_slash d1 d2 m1 m2 y1 y2 y3 y4 hd1 hd2 hm1 hm2 hy1 hy2 hy3 hy4⟩

/-- Witness for C5 at concrete inputs: the general clauses applied to
"2026-02-15" (ISO passthrough), to the digit characters of "15-02-2026"
(reordering), and to "Feb 2026" (totality). -/
theorem normalize_date_correct_witness :
    normalize_date "2026-02-15" = some "2026-02-15"
    ∧ normalize_date ⟨['1', '5', '-', '0', '2', '-', '2', '0', '2', '6']⟩
        = some ⟨['2', '0', '2', '6', '-', '0', '2', '-', '1', '5']⟩
    ∧ (∃ r, normalize_date "Feb 2026" = some r) := by
  refine ⟨normalize_date_correct.2.2.2.1 "2026-02-15" (by decide), ?_, ?_⟩
  · exact (normalize_date_correct.2.2.2.2.1 '1' '5' '0' '2' '2' '0' '2' '6'
      (by decide) (by decide) (by decide) (by decide) (by decide) (by decide)
      (by decide) (by decide)).1
  · exact normalize_date_correct.2.2.2.2.2 "Feb 2026" (by decide)

/-! ## Embedded-script value and the estimated-value merge
(`TenderExtractor._extract_script_value`, extractor.py 645-653, and
`extract_tender_details`, extractor.py 114-116 and 138-147)

`_extract_script_value` runs `re.search(rf'var {var_name}\s*=\s*([\d\.]+)',
content)` and converts the captured group with `float(...)`; a failed
conversion (e.g. `1.2.3`) is swallowed and yields `None` without further
searching.  `extract_tender_details` then sets
`estimated_value = script_value if script_value is not None else None`
(line 116) and stores that into the merged record (line 146); the
label/value-scan result for `Estimated Cost Value` lands under the
separate `estimated_cost_text` key and is never merged into
`estimated_value`.  Monetary values are modelled as exact rationals. -/

def isSpaceChar (c : Char) : Bool :=
  c == ' ' || c == '\t' || c == '\n' || c == '\r' || c == '\x0b' || c == '\x0c'

def matchLiteral : List Char → List Char → Option (List Char)
  | [], s => some s
  | _ :: _, [] => none
  | c :: cs, x :: xs => if c == x then matchLiteral cs xs else none

def isNumChar (c : Char) : Bool := c.isDigit || c == '.'

def matchScriptAssignAt (var_name : String) (s : List Char) : Option (List Char) :=
  match matchLiteral ("var " ++ var_name).data s with
  | none => none
  | some r1 =>
    match r1.dropWhile isSpaceChar with
    | '=' :: r3 =>
      let num := (r3.dropWhile isSpaceChar).takeWhile isNumChar
      if num.isEmpty then none else some num
    | _ => none

def searchScriptAssign (var_name : String) : List Char → Option (List Char)
  | [] => none
  | c :: t =>
    match matchScriptAssignAt var_name (c :: t) with
    | some num => some num
    | none => searchScriptAssign var_name t

def splitOnDot : List Char → List (List Char)
  | [] => [[]]
  | c :: t =>
    if c = '.' then [] :: splitOnDot t
    else
      match splitOnDot t with
      | h :: r => (c :: h) :: r
      | [] => [[c]]

def digitsToNat (l : List Char) : Nat :=
  l.foldl (fun acc c => 10 * acc + digitVal c) 0

/-- Exact decimal value, canonical in the number of fractional digits, as
an executable stand-in for the value `float(...)` parses: `units` before
the point, `frac` the fractional digits read as an integer, `scale` the
number of fractional digits after stripping trailing zeros (so "1.50" and
"1.5" parse equal, as the corresponding floats are; IEEE rounding is not
modelled — no claim computes with the value, it only flows through). -/
structure PyDecimal where
  units : Nat
  frac : Nat
  scale : Nat
deriving Repr, DecidableEq

def stripTrailingZeros : Nat → Nat → Nat × Nat
  | frac, 0 => (frac, 0)
  | frac, s + 1 =>
    if frac % 10 = 0 then stripTrailingZeros (frac / 10) s else (frac, s + 1)

def mkPyDecimal (units frac scale : Nat) : PyDecimal :=
  let c := stripTrailingZeros frac scale
  ⟨units, c.1, c.2⟩

def parsePyFloat (s : List Char) : Option PyDecimal :=
  match splitOnDot s with
  | [ip] => if ip.isEmpty then none else some (mkPyDecimal (digitsToNat ip) 0 0)
  | [ip, fp] =>
    if ip.isEmpty && fp.isEmpty then none
    else some (mkPyDecimal (digitsToNat ip) (digitsToNat fp) fp.length)
  | _ => none

def extract_script_value (content : String) (var_name : String) :
    Option PyDecimal :=
  match searchScriptAssign var_name content.data with
  | some num => parsePyFloat num
  | none => none

/-- Line 116 of extractor.py:
`estimated_value = script_value if script_value is not None else None`,
stored unchanged into the merged detail record (line 146).  The
label/value-scan result is passed in but — as in the source — does not
reach the field. -/
def detailEstimatedValue (content : String) (tableScanValue : Option PyDecimal) :
    Option PyDecimal :=
  match extract_script_value content "ecvvalue" with
  | some v => some v
  | none => none

/-- The estimated-value merge as claim C2 states it (spec's words, for
comparison with `detailEstimatedValue`): the embedded-script value takes
precedence, and in its absence the label/value-scan result is used. -/
def specEstimatedValue (content : String) (tableScanValue : Option PyDecimal) :
    Option PyDecimal :=
  match extract_script_value content "ecvvalue" with
  | some v => some v
  | none => tableScanValue

/-- C2 counterexample: a detail page whose markup contains no
`var ecvvalue = ...` assignment while the label/value scan produced the
value 5.  The merged record holds `none`, not the label/value-scan result
`some 5` the claim requires. -/
theorem estimated_value_counterexample :
    detailEstimatedValue "<html>no script here</html>" (some ⟨5, 0, 0⟩) = none
    ∧ specEstimatedValue "<html>no script here</html>" (some ⟨5, 0, 0⟩) = some ⟨5, 0, 0⟩
    ∧ detailEstimatedValue "<html>no script here</html>" (some ⟨5, 0, 0⟩)
        ≠ specEstimatedValue "<html>no script here</html>" (some ⟨5, 0, 0⟩) := by
  refine ⟨by decide, by decide, by decide⟩

/-- C2 (amended): whenever the embedded-script scan yields an estimated
contract value, the final merged record holds exactly that value (script
precedence); but when no script value is present, the merged record's
estimated value is empty — the label/value-scan result is *not* used for
this field, whatever it is. -/
theorem detail_estimated_value_correct (content : String) (table : Option PyDecimal) :
    (∀ v, extract_script_value content "ecvvalue" = some v →
      detailEstimatedValue content table = some v)
    ∧ (extract_script_value content "ecvvalue" = none →
      detailEstimatedValue content table = none) := by
  constructor
  · intro v hv
    unfold detailEstimatedValue
    rw [hv]
  · intro hv
    unfold detailEstimatedValue
    rw [hv]

/-- Witness for C2 at concrete inputs: a page declaring
`var ecvvalue = 123.5` merges the script value 123.5 even though the
table scan said 7; a page with no script assignment merges `none`
although the table scan said 7. -/
theorem detail_estimated_value_correct_witness :
    detailEstimatedValue "<script>var ecvvalue = 123.5;</script>" (some ⟨7, 0, 0⟩)
      = some ⟨123, 5, 1⟩
    ∧ detailEstimatedValue "<html></html>" (some ⟨7, 0, 0⟩) = none := by
  constructor
  · exact (detail_estimated_value_correct "<script>var ecvvalue = 123.5;</script>"
      (some ⟨7, 0, 0⟩)).1 ⟨123, 5, 1⟩ (by decide)
  · exact (detail_estimated_value_correct "<html></html>" (some ⟨7, 0, 0⟩)).2 (by decide)

/-! ## Listing-row extraction (`TenderExtractor._extract_row_data`,
extractor.py 46-87, `_extract_tender_id_from_html`, extractor.py 341-343,
and the row loop of `extract_tender_list`, extractor.py 31-37)

A row is its list of `<td>` cell texts (cell 0 `inner_text`, cells 1-2
`inner_html`).  The tender id comes from
`re.search(r'Tender[_ ]?Id[:\s]+(\d+)', html, re.IGNORECASE)`.  The
remaining per-row fields (organization, title, estimated value, closing
date, document count, raw prefix) are independent total extractions that
cannot make the row yield no record, so the model carries the fields the
claims read.  The greedy optional `[_ ]?` needs no backtracking: if it
consumed `_`/` ` then retrying without consuming would have to match `i`
against that same `_`/` ` and fail anyway. -/

def isColonOrSpace (c : Char) : Bool := c == ':' || isSpaceChar c

def matchLiteralCI : List Char → List Char → Option (List Char)
  | [], s => some s
  | _ :: _, [] => none
  | c :: cs, x :: xs =>
    if c.toLower == x.toLower then matchLiteralCI cs xs else none

def matchTenderIdAt (s : List Char) : Option (List Char) :=
  match matchLiteralCI "tender".data s with
  | none => none
  | some r1 =>
    let r2 := match r1 with
      | c :: rest => if c == '_' || c == ' ' then rest else r1
      | [] => r1
    match matchLiteralCI "id".data r2 with
    | none => none
    | some r3 =>
      if (r3.takeWhile isColonOrSpace).isEmpty then none
      else
        let digits := (r3.dropWhile isColonOrSpace).takeWhile Char.isDigit
        if digits.isEmpty then none else some digits

def extractTenderIdFromHtml : List Char → Option (List Char)
  | [] => none
  | c :: t =>
    match matchTenderIdAt (c :: t) with
    | some d => some d
    | none => extractTenderIdFromHtml t

def pyStrip (s : String) : String :=
  ⟨((s.data.dropWhile isSpaceChar).reverse.dropWhile isSpaceChar).reverse⟩

structure Row where
  cells : List String
deriving Repr, DecidableEq

structure RowRecord where
  tender_id : List Char
  ifb_number : String
deriving Repr, DecidableEq

def extractRowData (row : Row) : Option RowRecord :=
  if row.cells.length < 3 then none
  else
    match extractTenderIdFromHtml ((row.cells.get? 1).getD "").data with
    | none => none
    | some tid => some ⟨tid, pyStrip ((row.cells.get? 0).getD "")⟩

def extract_tender_list (rows : List Row) : List RowRecord :=
  rows.filterMap extractRowData

/-- C7: a listing row with fewer than 3 cells yields no record; a row
whose detail cell admits no tender-identifier parse yields no record;
skipped rows do not abort the batch — the extracted records are at most
as many as the rendered rows and every extracted record comes from some
rendered row. -/
theorem extract_tender_list_correct (rows : List Row) :
    (∀ row, row.cells.length < 3 → extractRowData row = none)
    ∧ (∀ row, extractTenderIdFromHtml ((row.cells.get? 1).getD "").data = none →
        extractRowData row = none)
    ∧ (extract_tender_list rows).length ≤ rows.length
    ∧ (∀ rec ∈ extract_tender_list rows,
        ∃ row ∈ rows, extractRowData row = some rec) := by
  refine ⟨?_, ?_, ?_, ?_⟩
  · intro row h
    rw [extractRowData, if_pos h]
  · intro row h
    rw [extractRowData]
    by_cases hlen : row.cells.length < 3
    · rw [if_pos hlen]
    · rw [if_neg hlen, h]
  · exact List.length_filterMap_le _ _
  · intro rec hrec
    rcases List.mem_filterMap.1 hrec with ⟨row, hrow, heq⟩
    exact ⟨row, hrow, heq⟩

/-- Witness for C7 at concrete rows: a 2-cell row is skipped, a 3-cell row
without a parsable tender id is skipped, a 3-cell row with
"Tender Id : 271843" yields its record, and the batch of all three yields
exactly that one record. -/
theorem extract_tender_list_correct_witness :
    extractRowData ⟨["a", "b"]⟩ = none
    ∧ extractRowData ⟨["x", "<b>no identifier</b>", "y"]⟩ = none
    ∧ extract_tender_list
        [⟨["a", "b"]⟩, ⟨["x", "<b>no identifier</b>", "y"]⟩,
         ⟨[" IFB-7 ", "<a>Tender Id :271843</a>", "docs"]⟩]
      = [⟨['2', '7', '1', '8', '4', '3'], "IFB-7"⟩] := by
    refine ⟨(extract_tender_list_correct []).1 ⟨["a", "b"]⟩ (by decide), ?_, by decide⟩
    exact (extract_tender_list_correct []).2.1 ⟨["x", "<b>no identifier</b>", "y"]⟩
      (by decide)

/-! ## Label/value table-field scan (`TenderExtractor._extract_table_field`,
extractor.py 666-714)

The page is represented by the three element sequences the function
iterates, in document order: `<td>` cells, `<th>` cells, and the
div/span/strong/label elements of strategy 3.  Each carries its stripped
text and the stripped text of its relevant next sibling (`find_next_sibling('td')`
for strategies 1-2, `find_next_sibling()` for strategy 3); texts are
taken post-`html.unescape`.  Strategies 1 and 2 match the label
case-insensitively as a substring in either direction; strategy 3 tests
`label in elem_text` — case-*sensitive*, one direction only — and also
rejects a value equal to the label itself. -/

structure LabeledCell where
  text : String
  sib : Option String
deriving Repr, DecidableEq

structure PageTables where
  tds : List LabeledCell
  ths : List LabeledCell
  elems : List LabeledCell
deriving Repr, DecidableEq

def looseMatch (label t : String) : Bool :=
  strContains (pyLower t) (pyLower label) || strContains (pyLower label) (pyLower t)

def validValue (v : String) : Bool :=
  !(v == "") && !(v == "N A") && !(v == "N/A")

def scanCells (labelMatch valid : String → Bool) : List LabeledCell → Option String
  | [] => none
  | c :: cs =>
    if labelMatch c.text then
      match c.sib with
      | some v => if valid v then some v else scanCells labelMatch valid cs
      | none => scanCells labelMatch valid cs
    else scanCells labelMatch valid cs

def extract_table_field (p : PageTables) (label : String) : Option String :=
  match scanCells (looseMatch label) validValue p.tds with
  | some v => some v
  | none =>
    match scanCells (looseMatch label) validValue p.ths with
    | some v => some v
    | none =>
      scanCells (fun t => strContains t label)
        (fun v => validValue v && !(v == label)) p.elems

/-- The scan as claim C6 states it (spec's words, for comparison with
`extract_table_field`): all three strategies use the case-insensitive
either-direction label match and only the blank-markers are excluded. -/
def specExtractTableField (p : PageTables) (label : String) : Option String :=
  match scanCells (looseMatch label) validValue p.tds with
  | some v => some v
  | none =>
    match scanCells (looseMatch label) validValue p.ths with
    | some v => some v
    | none => scanCells (looseMatch label) validValue p.elems

theorem scanCells_valid (m val : String → Bool) (cs : List LabeledCell)
    (v : String) (h : scanCells m val cs = some v) : val v = true := by
  induction cs with
  | nil => exact Option.noConfusion h
  | cons c cs ih =>
    rw [scanCells] at h
    by_cases hm : m c.text
    · rw [if_pos hm] at h
      cases hs : c.sib with
      | none =>
        rw [hs] at h
        exact ih h
      | some w =>
        rw [hs] at h
        dsimp only at h
        by_cases hv : val w
        · rw [if_pos hv] at h
          cases h
          exact hv
        · rw [if_neg hv] at h
          exact ih h
    · rw [if_neg hm] at h
      exact ih h

theorem scanCells_first (m val : String → Bool) (pre : List LabeledCell)
    (c : LabeledCell) (post : List LabeledCell) (v : String)
    (hm : m c.text = true) (hs : c.sib = some v) (hv : val v = true)
    (hpre : ∀ c' ∈ pre, ¬(m c'.text = true ∧ ∃ w, c'.sib = some w ∧ val w = true)) :
    scanCells m val (pre ++ c :: post) = some v := by
  induction pre with
  | nil =>
    rw [List.nil_append, scanCells, if_pos hm, hs]
    dsimp only
    rw [if_pos hv]
  | cons c' pre ih =>
    have hc' := hpre c' (List.mem_cons_self _ _)
    have htail : ∀ d ∈ pre, ¬(m d.text = true ∧ ∃ w, d.sib = some w ∧ val w = true) :=
      fun d hd => hpre d (List.mem_cons_of_mem _ hd)
    rw [List.cons_append, scanCells]
    by_cases hm' : m c'.text
    · rw [if_pos hm']
      cases hs' : c'.sib with
      | none => exact ih htail
      | some w =>
        dsimp only
        have hw : ¬ val w = true := fun hw => hc' ⟨hm', w, hs', hw⟩
        rw [if_neg hw]
        exact ih htail
    · rw [if_neg hm']
      exact ih htail

/-- C6 counterexample: a page whose only label-bearing element is a div
with text "organization name" (lower case) and sibling value "ACME".
Strategy 3 in the code tests `label in elem_text` case-sensitively, so
with label "Organization Name" the code returns nothing, while the
claim's uniform case-insensitive either-direction match would return
"ACME". -/
theorem extract_table_field_counterexample :
    extract_table_field
        ⟨[], [], [⟨"organization name", some "ACME"⟩]⟩ "Organization Name" = none
    ∧ specExtractTableField
        ⟨[], [], [⟨"organization name", some "ACME"⟩]⟩ "Organization Name"
      = some "ACME"
    ∧ extract_table_field
        ⟨[], [], [⟨"organization name", some "ACME"⟩]⟩ "Organization Name"
      ≠ specExtractTableField
        ⟨[], [], [⟨"organization name", some "ACME"⟩]⟩ "Organization Name" := by
  refine ⟨by decide, by decide, by decide⟩

/-- C6 (amended): the scan tries its strategies in the fixed order —
data-cell row-sibling, then header-cell-to-data-cell sibling, then
nearest-following-sibling of a label-bearing element — where strategies 1
and 2 match the label case-insensitively as a substring in either
direction but strategy 3 requires the label to occur in the element text
case-sensitively and additionally rejects a value equal to the label; the
first cell, in order, whose match holds and whose sibling value is
non-empty and not a blank-marker ("N/A", "N A", "") supplies the result,
earlier strategies taking precedence over later ones, and a returned
value is therefore never empty and never a blank-marker. -/
theorem extract_table_field_correct (p : PageTables) (label : String) :
    (∀ v, extract_table_field p label = some v →
        v ≠ "" ∧ v ≠ "N A" ∧ v ≠ "N/A")
    ∧ (∀ pre c post v, p.tds = pre ++ c :: post →
        looseMatch label c.text = true → c.sib = some v → validValue v = true →
        (∀ c' ∈ pre, ¬(looseMatch label c'.text = true
            ∧ ∃ w, c'.sib = some w ∧ validValue w = true)) →
        extract_table_field p label = some v)
    ∧ (scanCells (looseMatch label) validValue p.tds = none →
        ∀ v, scanCells (looseMatch label) validValue p.ths = some v →
        extract_table_field p label = some v)
    ∧ (scanCells (looseMatch label) validValue p.tds = none →
        scanCells (looseMatch label) validValue p.ths = none →
        extract_table_field p label
          = scanCells (fun t => strContains t label)
              (fun v => validValue v && !(v == label)) p.elems) := by
  refine ⟨?_, ?_, ?_, ?_⟩
  · intro v hv
    have hval : validValue v = true := by
      rw [extract_table_field] at hv
      cases h1 : scanCells (looseMatch label) validValue p.tds with
      | some w =>
        rw [h1] at hv
        cases hv
        exact scanCells_valid _ _ _ _ h1
      | none =>
        rw [h1] at hv
        cases h2 : scanCells (looseMatch label) validValue p.ths with
        | some w =>
          rw [h2] at hv
          cases hv
          exact scanCells_valid _ _ _ _ h2
        | none =>
          rw [h2] at hv
          have hb := scanCells_valid _ _ _ _ hv
          simp only [Bool.and_eq_true] at hb
          exact hb.1
    rw [validValue] at hval
    refine ⟨?_, ?_, ?_⟩ <;> intro he <;> rw [he] at hval <;> simp at hval
  · intro pre c post v htds hm hs hv hpre
    have h1 : scanCells (looseMatch label) validValue p.tds = some v := by
      rw [htds]
      exact scanCells_first _ _ pre c post v hm hs hv hpre
    rw [extract_table_field, h1]
  · intro h1 v h2
    rw [extract_table_field, h1, h2]
  · intro h1 h2
    rw [extract_table_field, h1, h2]

/-- Witness for C6 at a concrete page: the first matching data cell has
the blank-marker sibling "N/A" and is passed over; the second data cell
("organization", matching "Organization Name" case-insensitively as a
substring in the reverse direction) supplies "ACME"; on a page with no
data cells the header-cell strategy supplies the value; and the
never-blank guarantee holds of the returned "ACME". -/
theorem extract_table_field_correct_witness :
    extract_table_field
        ⟨[⟨"Organization Name", some "N/A"⟩, ⟨"organization", some "ACME"⟩],
         [], []⟩ "Organization Name" = some "ACME"
    ∧ ("ACME" : String) ≠ ""
    ∧ extract_table_field ⟨[], [⟨"Location", some "Pune"⟩], []⟩ "Location"
      = some "Pune" := by
  refine ⟨?_, ?_, ?_⟩
  · exact (extract_table_field_correct
      ⟨[⟨"Organization Name", some "N/A"⟩, ⟨"organization", some "ACME"⟩], [], []⟩
      "Organization Name").2.1
      [⟨"Organization Name", some "N/A"⟩] ⟨"organization", some "ACME"⟩ [] "ACME"
      (by decide) (by decide) (by decide) (by decide)
      (by
        intro c' hc'
        have : c' = ⟨"Organization Name", some "N/A"⟩ := by
          simpa using hc'
        rw [this]
        rintro ⟨-, w, hw, hval⟩
        have hnv : "N/A" = w := by
          simpa using hw
        rw [← hnv] at hval
        exact absurd hval (by decide))
  · exact (extract_table_field_correct
      ⟨[⟨"Organization Name", some "N/A"⟩, ⟨"organization", some "ACME"⟩], [], []⟩
      "Organization Name").1 "ACME" (by decide) |>.1
  · exact (extract_table_field_correct ⟨[], [⟨"Location", some "Pune"⟩], []⟩
      "Location").2.2.1 (by decide) "Pune" (by decide)

/-! ## Text cleaning (`TenderCleaner.clean_text`, cleaner.py 40-48)

The four steps, in source order:
1. `re.sub(r'<[^>]+>', '', text)` — removes every leftmost occurrence of
   `<`, one or more non-`>` characters, `>`; `stripTagsAux` is that scan
   with the pending potential tag kept in `buf` (in reverse): a bare `<>`
   does not match and is emitted, an unclosed `<...` at end of input is
   emitted;
2. `' '.join(text.split())` — split on whitespace runs, join with single
   spaces (`splitWsGo` carries the current token reversed in `cur`);
3. the third `re.sub` — keep only word characters, whitespace and the
   fixed punctuation allow-set `.,;:()/&` plus the hyphen (`\w` is
   modelled for ASCII; the texts in the claims are ASCII);
4. `.strip()`.
-/

def isWordChar (c : Char) : Bool := c.isAlphanum || c == '_'

def isAllowedChar (c : Char) : Bool :=
  isWordChar c || isSpaceChar c || c == '.' || c == ',' || c == ';' || c == ':'
    || c == '(' || c == ')' || c == '-' || c == '/' || c == '&'

def stripTagsAux : List Char → List Char → List Char
  | buf, [] => buf.reverse
  | buf, c :: cs =>
    match buf with
    | [] => if c = '<' then stripTagsAux [c] cs else c :: stripTagsAux [] cs
    | [b] =>
      if c = '>' then b :: c :: stripTagsAux [] cs
      else stripTagsAux (c :: [b]) cs
    | _ => if c = '>' then stripTagsAux [] cs else stripTagsAux (c :: buf) cs

def stripTags (cs : List Char) : List Char := stripTagsAux [] cs

def splitWsGo (cur : List Char) : List Char → List (List Char)
  | [] => if cur.isEmpty then [] else [cur.reverse]
  | c :: cs =>
    if isSpaceChar c then
      if cur.isEmpty then splitWsGo [] cs else cur.reverse :: splitWsGo [] cs
    else splitWsGo (c :: cur) cs

def splitWs (cs : List Char) : List (List Char) := splitWsGo [] cs

def joinSp : List (List Char) → List Char
  | [] => []
  | t :: ts =>
    match ts with
    | [] => t
    | _ :: _ => t ++ ' ' :: joinSp ts

def collapseWs (cs : List Char) : List Char := joinSp (splitWs cs)

def removeDisallowed (cs : List Char) : List Char := cs.filter isAllowedChar

def stripEnds (cs : List Char) : List Char :=
  ((cs.dropWhile isSpaceChar).reverse.dropWhile isSpaceChar).reverse

def cleanChars (cs : List Char) : List Char :=
  stripEnds (removeDisallowed (collapseWs (stripTags cs)))

def clean_text (s : String) : String := ⟨cleanChars s.data⟩

theorem stripTagsAux_no_lt (cs : List Char) (h : ∀ c ∈ cs, c ≠ '<') :
    stripTagsAux [] cs = cs := by
  induction cs with
  | nil => rfl
  | cons c cs ih =>
    have hc : c ≠ '<' := h c (List.mem_cons_self _ _)
    have hstep : stripTagsAux [] (c :: cs)
        = if c = '<' then stripTagsAux [c] cs else c :: stripTagsAux [] cs := rfl
    rw [hstep, if_neg hc]
    exact congrArg _ (ih (fun d hd => h d (List.mem_cons_of_mem _ hd)))

theorem splitWsGo_nil (cur : List Char) :
    splitWsGo cur [] = if cur.isEmpty then [] else [cur.reverse] := rfl

theorem splitWsGo_cons (cur : List Char) (c : Char) (cs : List Char) :
    splitWsGo cur (c :: cs)
      = if isSpaceChar c then
          (if cur.isEmpty then splitWsGo [] cs else cur.reverse :: splitWsGo [] cs)
        else splitWsGo (c :: cur) cs := rfl

theorem splitWsGo_tokens (cs : List Char) :
    ∀ cur, (∀ c ∈ cur, isSpaceChar c = false) →
      ∀ t ∈ splitWsGo cur cs,
        t ≠ [] ∧ ∀ ch ∈ t, isSpaceChar ch = false ∧ (ch ∈ cur ∨ ch ∈ cs) := by
  induction cs with
  | nil =>
    intro cur hcur t ht
    rw [splitWsGo_nil] at ht
    by_cases hc : cur.isEmpty
    · rw [if_pos hc] at ht
      exact absurd ht (List.not_mem_nil t)
    · rw [if_neg hc] at ht
      have hteq : t = cur.reverse := by simpa using ht
      subst hteq
      refine ⟨?_, ?_⟩
      · intro hrev
        rw [List.reverse_eq_nil_iff] at hrev
        rw [hrev] at hc
        exact hc rfl
      · intro ch hch
        rw [List.mem_reverse] at hch
        exact ⟨hcur ch hch, Or.inl hch⟩
  | cons c cs ih =>
    intro cur hcur t ht
    rw [splitWsGo_cons] at ht
    by_cases hsp : isSpaceChar c
    · rw [if_pos hsp] at ht
      have hfromtail : t ∈ splitWsGo [] cs →
          t ≠ [] ∧ ∀ ch ∈ t, isSpaceChar ch = false ∧ (ch ∈ cur ∨ ch ∈ c :: cs) := by
        intro ht'
        have := ih [] (by simp) t ht'
        refine ⟨this.1, fun ch hch => ⟨(this.2 ch hch).1, ?_⟩⟩
        rcases (this.2 ch hch).2 with h | h
        · exact absurd h (List.not_mem_nil ch)
        · exact Or.inr (List.mem_cons_of_mem _ h)
      by_cases hc : cur.isEmpty
      · rw [if_pos hc] at ht
        exact hfromtail ht
      · rw [if_neg hc] at ht
        rcases List.mem_cons.1 ht with rfl | ht'
        · refine ⟨?_, ?_⟩
          · intro hrev
            rw [List.reverse_eq_nil_iff] at hrev
            rw [hrev] at hc
            exact hc rfl
          · intro ch hch
            rw [List.mem_reverse] at hch
            exact ⟨hcur ch hch, Or.inl hch⟩
        · exact hfromtail ht'
    · rw [if_neg hsp] at ht
      have hcur' : ∀ d ∈ c :: cur, isSpaceChar d = false := by
        intro d hd
        rcases List.mem_cons.1 hd with rfl | hd'
        · simpa using hsp
        · exact hcur d hd'
      have := ih (c :: cur) hcur' t ht
      refine ⟨this.1, fun ch hch => ⟨(this.2 ch hch).1, ?_⟩⟩
      rcases (this.2 ch hch).2 with h | h
      · rcases List.mem_cons.1 h with rfl | h'
        · exact Or.inr (List.mem_cons_self _ _)
        · exact Or.inl h'
      · exact Or.inr (List.mem_cons_of_mem _ h)

theorem splitWsGo_append (xs : List Char) :
    ∀ cur ys, (∀ c ∈ xs, isSpaceChar c = false) →
      splitWsGo cur (xs ++ ys) = splitWsGo (xs.reverse ++ cur) ys := by
  induction xs with
  | nil => intro cur ys _; simp
  | cons c xs ih =>
    intro cur ys h
    have hc : isSpaceChar c = false := h c (List.mem_cons_self _ _)
    rw [List.cons_append, splitWsGo_cons, if_neg (by simp [hc])]
    rw [ih (c :: cur) ys (fun d hd => h d (List.mem_cons_of_mem _ hd))]
    congr 1
    simp

theorem joinSp_single (t : List Char) : joinSp [t] = t := rfl

theorem joinSp_cons_cons (t u : List Char) (ts : List (List Char)) :
    joinSp (t :: u :: ts) = t ++ ' ' :: joinSp (u :: ts) := rfl

theorem joinSp_ne_nil (t : List Char) (ts : List (List Char)) (h : t ≠ []) :
    joinSp (t :: ts) ≠ [] := by
  cases ts with
  | nil => simpa using h
  | cons u ts' =>
    rw [joinSp_cons_cons]
    intro hc
    rcases List.append_eq_nil.1 hc with ⟨-, h2⟩
    exact List.cons_ne_nil _ _ h2

theorem splitWs_joinSp (ts : List (List Char))
    (h : ∀ t ∈ ts, t ≠ [] ∧ ∀ c ∈ t, isSpaceChar c = false) :
    splitWs (joinSp ts) = ts := by
  induction ts with
  | nil => rfl
  | cons t ts ih =>
    rcases h t (List.mem_cons_self _ _) with ⟨hne, hsp⟩
    have hrevne : ¬ (t.reverse ++ ([] : List Char)).isEmpty = true := by
      simp [List.isEmpty_iff, hne]
    cases ts with
    | nil =>
      rw [joinSp_single, splitWs]
      have h2 := splitWsGo_append t [] [] hsp
      rw [List.append_nil] at h2
      rw [h2, splitWsGo_nil, if_neg hrevne]
      simp
    | cons u ts' =>
      rw [joinSp_cons_cons, splitWs]
      have h2 := splitWsGo_append t [] (' ' :: joinSp (u :: ts')) hsp
      rw [h2, splitWsGo_cons, if_pos (by decide), if_neg hrevne]
      simp only [List.append_nil, List.reverse_reverse]
      exact congrArg _ (ih (fun d hd => h d (List.mem_cons_of_mem _ hd)))

theorem joinSp_mem (ts : List (List Char)) :
    ∀ c ∈ joinSp ts, c = ' ' ∨ ∃ t ∈ ts, c ∈ t := by
  induction ts with
  | nil => intro c hc; exact absurd hc (List.not_mem_nil c)
  | cons t ts ih =>
    cases ts with
    | nil =>
      intro c hc
      exact Or.inr ⟨t, List.mem_cons_self _ _, by simpa using hc⟩
    | cons u ts' =>
      intro c hc
      rw [joinSp_cons_cons] at hc
      rcases List.mem_append.1 hc with h | h
      · exact Or.inr ⟨t, List.mem_cons_self _ _, h⟩
      · rcases List.mem_cons.1 h with rfl | h'
        · exact Or.inl rfl
        · rcases ih c h' with h'' | ⟨v, hv, hcv⟩
          · exact Or.inl h''
          · exact Or.inr ⟨v, List.mem_cons_of_mem _ hv, hcv⟩

theorem joinSp_head (ts : List (List Char))
    (h : ∀ t ∈ ts, t ≠ [] ∧ ∀ c ∈ t, isSpaceChar c = false) :
    ∀ c, (joinSp ts).head? = some c → isSpaceChar c = false := by
  cases ts with
  | nil => intro c hc; exact absurd hc (by simp [joinSp])
  | cons t ts' =>
    rcases h t (List.mem_cons_self _ _) with ⟨hne, hsp⟩
    cases t with
    | nil => exact absurd rfl hne
    | cons ch rest =>
      intro c hc
      have hhead : (joinSp ((ch :: rest) :: ts')).head? = some ch := by
        cases ts' with
        | nil => rfl
        | cons u ts'' => rfl
      rw [hhead] at hc
      cases hc
      exact hsp ch (List.mem_cons_self _ _)

theorem joinSp_last (ts : List (List Char))
    (h : ∀ t ∈ ts, t ≠ [] ∧ ∀ c ∈ t, isSpaceChar c = false) :
    ∀ c, (joinSp ts).getLast? = some c → isSpaceChar c = false := by
  induction ts with
  | nil => intro c hc; exact absurd hc (by simp [joinSp])
  | cons t ts ih =>
    cases ts with
    | nil =>
      intro c hc
      rw [joinSp_single] at hc
      exact (h t (List.mem_cons_self _ _)).2 c (List.mem_of_getLast?_eq_some hc)
    | cons u ts' =>
      intro c hc
      have htail : ∀ v ∈ u :: ts', v ≠ [] ∧ ∀ d ∈ v, isSpaceChar d = false :=
        fun v hv => h v (List.mem_cons_of_mem _ hv)
      have hJne : joinSp (u :: ts') ≠ [] :=
        joinSp_ne_nil u ts' (htail u (List.mem_cons_self _ _)).1
      rcases List.exists_cons_of_ne_nil hJne with ⟨j, J', hJ⟩
      rw [joinSp_cons_cons, hJ, List.getLast?_append] at hc
      have hlast : (' ' :: j :: J').getLast? = (j :: J').getLast? :=
        List.getLast?_cons_cons
      rw [hlast] at hc
      have hJsome : (j :: J').getLast? = some c := by
        rcases hlj : (j :: J').getLast? with _ | d
        · rw [List.getLast?_eq_none_iff] at hlj
          exact absurd hlj (List.cons_ne_nil _ _)
        · rw [hlj, Option.or_some] at hc
          cases hc
          rfl
      refine ih htail c ?_
      rw [hJ]
      exact hJsome

theorem dropWhile_eq_self_of_head (p : Char → Bool) (l : List Char)
    (h : ∀ c, l.head? = some c → p c = false) : l.dropWhile p = l := by
  cases l with
  | nil => rfl
  | cons c cs =>
    have hc := h c rfl
    rw [List.dropWhile_cons, hc]
    simp

theorem stripEnds_eq_self (l : List Char)
    (hh : ∀ c, l.head? = some c → isSpaceChar c = false)
    (hl : ∀ c, l.getLast? = some c → isSpaceChar c = false) :
    stripEnds l = l := by
  rw [stripEnds, dropWhile_eq_self_of_head _ _ hh,
    dropWhile_eq_self_of_head _ _ (fun c hc => hl c (by rwa [List.head?_reverse] at hc))]
  exact List.reverse_reverse l

theorem stripEnds_subset (l : List Char) : ∀ c ∈ stripEnds l, c ∈ l := by
  intro c hc
  rw [stripEnds, List.mem_reverse] at hc
  have h1 := (List.dropWhile_sublist _).subset hc
  rw [List.mem_reverse] at h1
  exact (List.dropWhile_sublist _).subset h1

theorem cleanChars_allowed (cs : List Char) :
    ∀ c ∈ cleanChars cs, isAllowedChar c = true := by
  intro c hc
  rw [cleanChars] at hc
  have h1 := stripEnds_subset _ c hc
  exact (List.mem_filter.1 h1).2

theorem cleanChars_of_allowed (cs : List Char)
    (h : ∀ c ∈ cs, isAllowedChar c = true) :
    cleanChars cs = joinSp (splitWs cs) := by
  have hlt : ∀ c ∈ cs, c ≠ '<' := by
    intro c hc he
    have hac := h c hc
    rw [he] at hac
    exact absurd hac (by decide)
  have htok := splitWsGo_tokens cs [] (by simp)
  have hgood : ∀ t ∈ splitWs cs, t ≠ [] ∧ ∀ c ∈ t, isSpaceChar c = false := by
    intro t ht
    have := htok t ht
    exact ⟨this.1, fun c hc => (this.2 c hc).1⟩
  have hallow : ∀ c ∈ joinSp (splitWs cs), isAllowedChar c = true := by
    intro c hc
    rcases joinSp_mem _ c hc with rfl | ⟨t, ht, hct⟩
    · decide
    · have := htok t ht
      rcases (this.2 c hct).2 with hcur | hcs
      · exact absurd hcur (List.not_mem_nil c)
      · exact h c hcs
  rw [cleanChars, stripTags, stripTagsAux_no_lt cs hlt, collapseWs,
    removeDisallowed, List.filter_eq_self.mpr hallow]
  exact stripEnds_eq_self _ (joinSp_head _ hgood) (joinSp_last _ hgood)

/-- C8 counterexample: cleaning "a ! b" removes the bang after whitespace
was collapsed, leaving the double space in "a  b"; cleaning again
collapses it to "a b", so a single application of the title-cleaning
function is not idempotent. -/
theorem clean_text_counterexample :
    clean_text "a ! b" = "a  b"
    ∧ clean_text (clean_text "a ! b") = "a b"
    ∧ clean_text (clean_text "a ! b") ≠ clean_text "a ! b" := by
  refine ⟨by decide, by decide, by decide⟩

/-- C8 (amended): text cleaning stabilizes after two applications — for
every string, cleaning the result of cleaning twice changes nothing; a
single application need not be idempotent, because removing a disallowed
character can merge two single spaces into a double space that only the
next application collapses. -/
theorem cleanChars_stabilizes (cs : List Char) :
    cleanChars (cleanChars (cleanChars cs)) = cleanChars (cleanChars cs) := by
  have hall : ∀ c ∈ cleanChars cs, isAllowedChar c = true :=
    cleanChars_allowed cs
  have h1 : cleanChars (cleanChars cs)
      = joinSp (splitWs (cleanChars cs)) :=
    cleanChars_of_allowed _ hall
  rw [h1]
  have htok := splitWsGo_tokens (cleanChars cs) [] (by simp)
  have hgood : ∀ t ∈ splitWs (cleanChars cs),
      t ≠ [] ∧ ∀ c ∈ t, isSpaceChar c = false := by
    intro t ht
    have := htok t ht
    exact ⟨this.1, fun c hc => (this.2 c hc).1⟩
  have hallow2 : ∀ c ∈ joinSp (splitWs (cleanChars cs)),
      isAllowedChar c = true := by
    intro c hc
    rcases joinSp_mem _ c hc with rfl | ⟨t, ht, hct⟩
    · decide
    · have := htok t ht
      rcases (this.2 c hct).2 with hcur | hcs
      · exact absurd hcur (List.not_mem_nil c)
      · exact hall c hcs
  rw [cleanChars_of_allowed _ hallow2, splitWs_joinSp _ hgood]

/-- C8 (amended, string level): the previous statement lifted to
`clean_text`. -/
theorem clean_text_stabilizes (s : String) :
    clean_text (clean_text (clean_text s)) = clean_text (clean_text s) :=
  congrArg String.mk (cleanChars_stabilizes s.data)

end Scraper
